import Mathlib

/-!
Shallow embedding of the data-structures repository (dynamic array and
separate-chaining hash table) together with proofs about the claims of
its specification.

Conventions of the embedding:
* Rust `usize` arithmetic is modelled by `Nat` with explicit `% 2 ^ 64`
  where the source uses wrapping operations.
* A Rust `String` key is modelled by its byte sequence, `List Nat`.
* Fallible Rust functions returning `Result<A, Exceptions>` become Lean
  functions returning `Except Exceptions A`.
* A possible Rust panic (slice indexing out of bounds, `Vec::remove`
  out of range, `x % 0`) is modelled by an outer `Option`: `none` means
  the call panics, `some r` means it returns `r`.
* A `&mut self` method becomes a state-passing function returning the
  new state together with the `Result`.
-/

set_option autoImplicit false

/-- The shared error enum of `exceptions/src/lib.rs`. -/
inductive Exceptions where
  | IndexOutOfBounds
  | KeyNotInitialized
  | DuplicateKey
  | NoSuchElement (msg : String)
deriving DecidableEq, Repr

/-- A Rust `String` key, modelled as its sequence of byte values. -/
abbrev Key := List Nat

/-- `self.array[i] = a` on a Rust boxed slice: in-bounds assignment,
`none` (panic) when `i` is out of bounds. -/
def listSet {α : Type} (l : List α) (i : Nat) (a : α) : Option (List α) :=
  if i < l.length then some (l.set i a) else none

namespace HashTable

/-- `Entry<T>` of `hash_table/src/separate_chaining_hash_table/entry.rs`. -/
structure Entry (T : Type) where
  key : Key
  value : T
deriving DecidableEq, Repr

/-- `Entry::compare_key`: `&self.key == key`. -/
def Entry.compare_key {T : Type} (e : Entry T) (key : Key) : Bool :=
  e.key == key

/-- `Entry::set`: `self.value = value`. -/
def Entry.set {T : Type} (e : Entry T) (value : T) : Entry T :=
  { e with value := value }

/-- `SeparateChainingHashTable<T>` of
`hash_table/src/separate_chaining_hash_table/mod.rs`. -/
structure SeparateChainingHashTable (T : Type) where
  buckets : List (List (Entry T))
  entries_len : Nat
deriving DecidableEq, Repr

namespace SeparateChainingHashTable

variable {T : Type}

/-- `SeparateChainingHashTable::hash`: sum of the key's byte values with
`usize` wrapping addition. -/
def hash (value : Key) : Nat :=
  value.foldl (fun h val => (h + val) % 2 ^ 64) 0

/-- `SeparateChainingHashTable::new(capacity)`. -/
def new (T : Type) (capacity : Nat) : SeparateChainingHashTable T :=
  { buckets := List.replicate capacity [], entries_len := 0 }

/-- `get(key)`.  `Self::hash(&key) % self.buckets.len()` panics when there
are zero buckets (`% 0`); otherwise the bucket is scanned linearly and the
first entry with a matching key is returned. -/
def get (s : SeparateChainingHashTable T) (key : Key) :
    Option (Except Exceptions T) :=
  if s.buckets.length = 0 then none
  else
    let index := hash key % s.buckets.length
    match s.buckets.get? index with
    | none => none
    | some bucket =>
      match bucket.find? (fun entry => entry.compare_key key) with
      | some entry => some (.ok entry.value)
      | none => some (.error .KeyNotInitialized)

/-- `get_mut(key)`: same lookup as `get`; the mutable borrow itself does
not change the table, so the observable result is the located value. -/
def get_mut (s : SeparateChainingHashTable T) (key : Key) :
    Option (Except Exceptions T) :=
  if s.buckets.length = 0 then none
  else
    let index := hash key % s.buckets.length
    match s.buckets.get? index with
    | none => none
    | some bucket =>
      match bucket.find? (fun entry => entry.compare_key key) with
      | some entry => some (.ok entry.value)
      | none => some (.error .KeyNotInitialized)

/-- The `for entry in &mut self.buckets[index]` loop of `set`: overwrite
the value of the first entry whose key matches, `none` when no entry
matches. -/
def setFirstMatch (key : Key) (value : T) :
    List (Entry T) → Option (List (Entry T))
  | [] => none
  | entry :: rest =>
    if entry.compare_key key then some (entry.set value :: rest)
    else (setFirstMatch key value rest).map (entry :: ·)

/-- `set(key, value)`: overwrite in place the value of the existing entry
for `key`, `KeyNotInitialized` when absent.  Panics (`none`) on zero
buckets. -/
def set (s : SeparateChainingHashTable T) (key : Key) (value : T) :
    Option (SeparateChainingHashTable T × Except Exceptions Unit) :=
  if s.buckets.length = 0 then none
  else
    let index := hash key % s.buckets.length
    match s.buckets.get? index with
    | none => none
    | some bucket =>
      match setFirstMatch key value bucket with
      | some bucket' =>
        some ({ s with buckets := s.buckets.set index bucket' }, .ok ())
      | none => some (s, .error .KeyNotInitialized)

/-- `insert(key, value)`: `DuplicateKey` when the key is already in its
bucket, otherwise push a new entry at the end of the chain and increment
`entries_len`.  Panics (`none`) on zero buckets. -/
def insert (s : SeparateChainingHashTable T) (key : Key) (value : T) :
    Option (SeparateChainingHashTable T × Except Exceptions Unit) :=
  if s.buckets.length = 0 then none
  else
    let index := hash key % s.buckets.length
    match s.buckets.get? index with
    | none => none
    | some bucket =>
      if bucket.any (fun entry => entry.compare_key key) then
        some (s, .error .DuplicateKey)
      else
        some ({ buckets := s.buckets.set index (bucket ++ [⟨key, value⟩]),
                entries_len := s.entries_len + 1 }, .ok ())

/-- `remove(key)`.  The source computes the bucket index, then finds the
position of the key inside that bucket, and in the `Some(index)` match arm
the position SHADOWS the bucket index, so `self.buckets[index].remove(index)`
indexes bucket `position` at offset `position`.  Both indexing steps can
panic (`none`): the slice index when `position >= buckets.len()`, and
`Vec::remove` when `position` is past the end of that (wrong) chain. -/
def remove (s : SeparateChainingHashTable T) (key : Key) :
    Option (SeparateChainingHashTable T × Except Exceptions T) :=
  if s.buckets.length = 0 then none
  else
    let index := hash key % s.buckets.length
    match s.buckets.get? index with
    | none => none
    | some bucket =>
      match bucket.findIdx? (fun entry => entry.compare_key key) with
      | some index =>
        match s.buckets.get? index with
        | none => none
        | some chain =>
          match chain.get? index with
          | none => none
          | some entry =>
            some ({ buckets := s.buckets.set index (chain.eraseIdx index),
                    entries_len := s.entries_len - 1 }, .ok entry.value)
      | none => some (s, .error .KeyNotInitialized)

/-- `get_entries()`: the (key, value) pairs, bucket by bucket, in chain
order.  The `if !entries.is_empty()` check of the source is a no-op for
the collected result. -/
def get_entries (s : SeparateChainingHashTable T) : List (Key × T) :=
  s.buckets.flatten.map (fun entry => (entry.key, entry.value))

/-- The body of `rehashing`'s nested loops: `let _ = self.insert(...)` for
every entry, in order, discarding each `Result` (but propagating a
panic). -/
def insertAll (s : SeparateChainingHashTable T) :
    List (Entry T) → Option (SeparateChainingHashTable T)
  | [] => some s
  | entry :: rest =>
    match insert s entry.key entry.value with
    | none => none
    | some (s', _) => insertAll s' rest

/-- `rehashing(capacity)`: fresh bucket array of the new size,
`entries_len = 0`, then re-insert every old entry bucket-by-bucket in
chain order. -/
def rehashing (s : SeparateChainingHashTable T) (capacity : Nat) :
    Option (SeparateChainingHashTable T) :=
  insertAll
    { buckets := List.replicate capacity [], entries_len := 0 }
    s.buckets.flatten

end SeparateChainingHashTable

end HashTable

namespace ArrayModel

/-- `DynamicArray<T>` of `array/src/dynamic_array/mod.rs`.  The backing
boxed slice of `Option<T>` becomes a `List (Option T)` whose length is
the allocation size. -/
structure DynamicArray (T : Type) where
  array : List (Option T)
  len : Nat
  capacity : Nat
  current : Nat
deriving DecidableEq, Repr

namespace DynamicArray

variable {T : Type}

/-- `DynamicArray::new(capacity)`: `capacity` slots, all `None`. -/
def new (T : Type) (capacity : Nat) : DynamicArray T :=
  { array := List.replicate capacity none, len := 0, capacity := capacity,
    current := 0 }

/-- `DynamicArray::with_values(capacity, values)`: slot `i` gets
`values.get(i)` for `i < capacity`; `len` is `min(values.len(), capacity)`. -/
def with_values (capacity : Nat) (values : List T) : DynamicArray T :=
  let size := if values.length < capacity then values.length else capacity
  { array := (List.range capacity).map (fun index => values.get? index),
    len := size, capacity := capacity, current := 0 }

/-- `DynamicArray::get(index)`: matches on `(index, self.array.get(index))`;
any of index at or past `len`, index past the allocation, or an absent slot
yields `IndexOutOfBounds`. -/
def get (s : DynamicArray T) (index : Nat) : Except Exceptions T :=
  if index ≥ s.len then .error .IndexOutOfBounds
  else
    match s.array.get? index with
    | none => .error .IndexOutOfBounds
    | some none => .error .IndexOutOfBounds
    | some (some value) => .ok value

/-- `DynamicArray::set(index, value)`: guard `index >= len`, then
`self.array[index] = Some(value)` (a panicking slice write). -/
def set (s : DynamicArray T) (index : Nat) (value : T) :
    Option (DynamicArray T × Except Exceptions Unit) :=
  if index ≥ s.len then some (s, .error .IndexOutOfBounds)
  else
    match listSet s.array index (some value) with
    | none => none
    | some arr => some ({ s with array := arr }, .ok ())

/-- `DynamicArray::resize(new_capacity)`: fresh `None`-filled slice of the
new size; the copy loop writes `new_array[i] = old[i]` exactly for the
indices `i` that both slices have (`new_array.get_mut(index)` guards the
write), which per slot `i < new_capacity` gives `old.getD i none`; then
`len` is clamped to the new capacity. -/
def resize (s : DynamicArray T) (new_capacity : Nat) : DynamicArray T :=
  { array := (List.range new_capacity).map (fun index => s.array.getD index none),
    len := if s.len > new_capacity then new_capacity else s.len,
    capacity := new_capacity,
    current := s.current }

/-- `DynamicArray::push(value)`: grow to 4 from capacity 0, else double
when full, then `self.array[self.len] = Some(value)` (panicking write)
and increment `len`. -/
def push (s : DynamicArray T) (value : T) : Option (DynamicArray T) :=
  let s :=
    if s.capacity = 0 then s.resize 4
    else if s.len = s.capacity then s.resize (s.capacity * 2)
    else s
  match listSet s.array s.len (some value) with
  | none => none
  | some arr => some { s with array := arr, len := s.len + 1 }

/-- The right-shift loop of `insert`:
`for i in ((index + 1)..=len).rev() { self.array[i] = arr[i - 1].clone() }`,
reading from the snapshot `arr` taken before the loop, iterating
`i = len, len - 1, ..., index + 1`.  A read or write out of bounds is a
panic (`none`). -/
def shiftRightAux (arr : List (Option T)) :
    Nat → Nat → List (Option T) → Option (List (Option T))
  | 0, _, cur => some cur
  | count + 1, i, cur =>
    match arr.get? (i - 1) with
    | none => none
    | some v =>
      match listSet cur i v with
      | none => none
      | some cur' => shiftRightAux arr count (i - 1) cur'

/-- The loop runs `len - index` iterations, the write index starting at
`len` and counting down to `index + 1`. -/
def shiftRightLoop (arr : List (Option T)) (index len : Nat)
    (cur : List (Option T)) : Option (List (Option T)) :=
  shiftRightAux arr (len - index) len cur

/-- `DynamicArray::insert(index, value)`: reject `index >= len`, double
when full, shift `[index, len)` one slot right, place the value, increment
`len`. -/
def insert (s : DynamicArray T) (index : Nat) (value : T) :
    Option (DynamicArray T × Except Exceptions Unit) :=
  if index ≥ s.len then some (s, .error .IndexOutOfBounds)
  else
    let s := if s.len = s.capacity then s.resize (s.capacity * 2) else s
    match shiftRightLoop s.array index s.len s.array with
    | none => none
    | some arr1 =>
      match listSet arr1 index (some value) with
      | none => none
      | some arr2 =>
        some ({ s with array := arr2, len := s.len + 1 }, .ok ())

/-- The left-shift loop of `remove`:
`for (i, v) in slice.iter().enumerate() { self.array[index + i] = v.clone() }`
with `slice = &clone[(index + 1)..len]`, iterating ascending. -/
def shiftLeftLoop (index : Nat) :
    List (Option T) → Nat → List (Option T) → Option (List (Option T))
  | [], _, cur => some cur
  | v :: rest, i, cur =>
    match listSet cur (index + i) v with
    | none => none
    | some cur' => shiftLeftLoop index rest (i + 1) cur'

/-- `DynamicArray::remove(index)`: the match on
`(index, self.array.get(index))` returns `IndexOutOfBounds` for an index at
or past `len`, past the allocation, or an absent slot; then the slice
`&clone[(index + 1)..len]` (panics when `len` exceeds the allocation) is
copied one slot left, the vacated last slot is cleared, `len` decremented,
and the capacity halved when `len < capacity / 2 && capacity > 1`. -/
def remove (s : DynamicArray T) (index : Nat) :
    Option (DynamicArray T × Except Exceptions T) :=
  if index ≥ s.len then some (s, .error .IndexOutOfBounds)
  else
    match s.array.get? index with
    | none => some (s, .error .IndexOutOfBounds)
    | some none => some (s, .error .IndexOutOfBounds)
    | some (some value) =>
      if s.len ≤ s.array.length then
        let slice := (s.array.take s.len).drop (index + 1)
        match shiftLeftLoop index slice 0 s.array with
        | none => none
        | some arr1 =>
          match listSet arr1 (s.len - 1) none with
          | none => none
          | some arr2 =>
            let s' := { s with array := arr2, len := s.len - 1 }
            if s'.len < s'.capacity / 2 ∧ 1 < s'.capacity then
              some (s'.resize (s'.capacity / 2), .ok value)
            else
              some (s', .ok value)
      else none

/-- Iterated `push` of a list of values, left to right. -/
def pushAll (s : DynamicArray T) : List T → Option (DynamicArray T)
  | [] => some s
  | value :: rest =>
    match push s value with
    | none => none
    | some s' => pushAll s' rest

/-- One draining step: `remove(0)`, demanding a successful (`Ok`,
non-panicking) call. -/
def removeFront (s : DynamicArray T) : Option (DynamicArray T) :=
  match remove s 0 with
  | some (s', .ok _) => some s'
  | _ => none

/-- `k` successive successful `remove(0)` calls. -/
def drain : Nat → DynamicArray T → Option (DynamicArray T)
  | 0, s => some s
  | k + 1, s =>
    match removeFront s with
    | none => none
    | some s' => drain k s'

/-- Representation invariant of a dynamic array: the backing slice has
exactly `capacity` slots, the live region fits, and every live slot is
present. -/
def Inv (s : DynamicArray T) : Prop :=
  s.array.length = s.capacity ∧ s.len ≤ s.capacity ∧
    ∀ j, j < s.len → (s.array.getD j none).isSome = true

instance (s : DynamicArray ℕ) : Decidable (Inv s) := by
  unfold Inv; infer_instance

end DynamicArray

end ArrayModel

section Scratch

open HashTable SeparateChainingHashTable
open ArrayModel DynamicArray in
example : Inv (with_values 4 [1, 2, 3]) := by decide
open ArrayModel DynamicArray in
example :
    pushAll (new ℕ 0) [1, 2, 3, 4, 5] =
      some { array := [some 1, some 2, some 3, some 4, some 5, none, none, none],
             len := 5, capacity := 8, current := 0 } := by rfl
open ArrayModel DynamicArray in
example :
    (ArrayModel.DynamicArray.insert (with_values 4 [1, 2, 3]) 1 42).map
      (fun p => ((p.1.array, p.1.len, p.1.capacity), p.2.isOk)) =
      some (([some 1, some 42, some 2, some 3], 4, 4), true) := by rfl
open ArrayModel DynamicArray in
example :
    (ArrayModel.DynamicArray.remove (with_values 4 [1, 2, 3]) 1).map
      (fun p => ((p.1.array, p.1.len, p.1.capacity), p.2.toOption)) =
      some (([some 1, some 3, none, none], 2, 4), some 2) := by rfl
open ArrayModel DynamicArray in
example :
    (ArrayModel.DynamicArray.remove (with_values 3 [1, 2, 3]) 1).map
      (fun p => ((p.1.array, p.1.len, p.1.capacity), p.2.toOption)) =
      some (([some 1, some 3, none], 2, 3), some 2) := by rfl

example :
    insert (new Nat 2) [97] 0 =
      some ({ buckets := [[], [⟨[97], 0⟩]], entries_len := 1 }, .ok ()) := by
  rfl

example :
    remove { buckets := [[], [(⟨[97], 0⟩ : Entry Nat)]], entries_len := 1 }
      [97] = none := by
  rfl

end Scratch

/-! ## Claim theorems -/

open HashTable SeparateChainingHashTable
open ArrayModel

/-- Claim C10: `new(0)` succeeds with zero buckets, and every keyed
operation (`get`, `get_mut`, `set`, `insert`, `remove`) on that table
panics for every key — the bucket index is a remainder by zero — rather
than returning a typed error. -/
theorem claim10_zero_buckets_every_keyed_op_panics (T : Type) :
    (new T 0).buckets = [] ∧
    ∀ (key : Key) (value : T),
      get (new T 0) key = none ∧
      get_mut (new T 0) key = none ∧
      SeparateChainingHashTable.set (new T 0) key value = none ∧
      SeparateChainingHashTable.insert (new T 0) key value = none ∧
      SeparateChainingHashTable.remove (new T 0) key = none :=
  ⟨rfl, fun _ _ => ⟨rfl, rfl, rfl, rfl, rfl⟩⟩

/-- Claim C1 is false on the code: with two buckets, the key `"a"`
(byte 97) hashes to bucket 1, chain position 0; `remove` then evaluates
`self.buckets[0].remove(0)` — the chain position shadows the bucket
index — and panics on the empty bucket 0 where the claim requires it to
succeed and return the stored value. -/
theorem claim1_remove_panics_on_present_key :
    ∃ s1, SeparateChainingHashTable.insert (new ℕ 2) [97] 5 =
        some (s1, .ok ()) ∧
      get s1 [97] = some (.ok 5) ∧
      SeparateChainingHashTable.remove s1 [97] = none :=
  ⟨{ buckets := [[], [⟨[97], 5⟩]], entries_len := 1 }, rfl, rfl, rfl⟩

/-- Claim C2 is false on the code: `remove` on a present key is an
in-contract call (the table was built by `new(5)` and a successful
`insert`), yet it panics instead of succeeding, because the chain
position shadows the bucket index and indexes an empty bucket. -/
theorem claim2_in_contract_remove_panics :
    ∃ s1, SeparateChainingHashTable.insert (new ℕ 5) [1] 7 =
        some (s1, .ok ()) ∧
      SeparateChainingHashTable.remove s1 [1] = none :=
  ⟨{ buckets := [[], [⟨[1], 7⟩], [], [], []], entries_len := 1 }, rfl, rfl⟩

/-- Claim C9: `insert(index, value)` with `index >= length` (including
`index == length`) fails with `IndexOutOfBounds` and returns the state
unchanged — same length, capacity and stored elements. -/
theorem claim9_insert_at_or_past_len_rejected {T : Type}
    (s : DynamicArray T) (index : Nat) (value : T) (h : s.len ≤ index) :
    DynamicArray.insert s index value =
      some (s, .error .IndexOutOfBounds) := by
  simp [DynamicArray.insert, h]

/-- Witness for C9 at the spec's concrete scenario: `[1, 2, 3]` with
capacity 3, `insert(5, 10)`. -/
theorem claim9_insert_at_or_past_len_rejected_witness :
    (DynamicArray.with_values 3 [1, 2, 3]).len ≤ 5 ∧
    DynamicArray.insert (DynamicArray.with_values 3 [1, 2, 3]) 5 10 =
      some (DynamicArray.with_values 3 [1, 2, 3], .error .IndexOutOfBounds) :=
  ⟨by decide,
   claim9_insert_at_or_past_len_rejected
     (DynamicArray.with_values 3 [1, 2, 3]) 5 10 (by decide)⟩

namespace HashTable.SeparateChainingHashTable

variable {T : Type}

theorem insert_ok_eq (s : SeparateChainingHashTable T) (key : Key) (v : T)
    (hn : ¬ s.buckets.length = 0) (bucket : List (Entry T))
    (hb : s.buckets.get? (hash key % s.buckets.length) = some bucket)
    (hany : bucket.any (fun e => e.compare_key key) = false) :
    insert s key v =
      some ({ buckets := s.buckets.set (hash key % s.buckets.length)
                (bucket ++ [⟨key, v⟩]),
              entries_len := s.entries_len + 1 }, .ok ()) := by
  rw [List.get?_eq_getElem?] at hb
  have hnotex : ¬ ∃ x ∈ bucket, x.compare_key key = true := by
    rw [← List.any_eq_true, hany]; exact Bool.false_ne_true
  simp [insert, hn, hb, hnotex]

theorem insert_dup_eq (s : SeparateChainingHashTable T) (key : Key) (v : T)
    (hn : ¬ s.buckets.length = 0) (bucket : List (Entry T))
    (hb : s.buckets.get? (hash key % s.buckets.length) = some bucket)
    (hany : bucket.any (fun e => e.compare_key key) = true) :
    insert s key v = some (s, .error .DuplicateKey) := by
  rw [List.get?_eq_getElem?] at hb
  have hex : ∃ x ∈ bucket, x.compare_key key = true := List.any_eq_true.mp hany
  simp [insert, hn, hb, hex]

theorem get_found_eq (s : SeparateChainingHashTable T) (key : Key)
    (hn : ¬ s.buckets.length = 0) (bucket : List (Entry T))
    (hb : s.buckets.get? (hash key % s.buckets.length) = some bucket)
    (e : Entry T)
    (hf : bucket.find? (fun entry => entry.compare_key key) = some e) :
    get s key = some (.ok e.value) := by
  rw [List.get?_eq_getElem?] at hb
  simp [get, hn, hb, hf]

/-- In a table with at least one bucket, the hashed bucket exists. -/
theorem get?_hashed_bucket (s : SeparateChainingHashTable T) (key : Key)
    (hn : 0 < s.buckets.length) :
    ∃ bucket, s.buckets.get? (hash key % s.buckets.length) = some bucket ∧
      bucket ∈ s.buckets := by
  have hidx : hash key % s.buckets.length < s.buckets.length :=
    Nat.mod_lt _ hn
  refine ⟨s.buckets[hash key % s.buckets.length], ?_, List.getElem_mem hidx⟩
  simp [List.get?_eq_getElem?, List.getElem?_eq_getElem hidx]

end HashTable.SeparateChainingHashTable

/-- Claim C5: on a table with at least one bucket, inserting an absent
key `k` with value `v` succeeds, `get(k)` then returns `v`, and a second
`insert(k, w)` fails with `DuplicateKey` leaving the table (entries and
`entry_count`) unchanged. -/
theorem claim5_insert_then_get_then_duplicate {T : Type}
    (s : SeparateChainingHashTable T) (key : Key) (v w : T)
    (hn : 0 < s.buckets.length)
    (habs : s.buckets.flatten.any (fun e => e.compare_key key) = false) :
    ∃ s1, SeparateChainingHashTable.insert s key v = some (s1, .ok ()) ∧
      get s1 key = some (.ok v) ∧
      SeparateChainingHashTable.insert s1 key w =
        some (s1, .error .DuplicateKey) := by
  have hn0 : ¬ s.buckets.length = 0 := Nat.pos_iff_ne_zero.mp hn
  obtain ⟨bucket, hb, hmem⟩ := get?_hashed_bucket s key hn
  have hany : bucket.any (fun e => e.compare_key key) = false := by
    rw [List.any_eq_false]
    intro e he
    exact (List.any_eq_false.mp habs) e (List.mem_flatten.mpr ⟨bucket, hmem, he⟩)
  refine ⟨_, insert_ok_eq s key v hn0 bucket hb hany, ?_, ?_⟩
  all_goals
    have hlen1 : (s.buckets.set
        (SeparateChainingHashTable.hash key % s.buckets.length)
        (bucket ++ [⟨key, v⟩])).length = s.buckets.length := List.length_set ..
  all_goals
    have hn1 : ¬ (s.buckets.set
        (SeparateChainingHashTable.hash key % s.buckets.length)
        (bucket ++ [⟨key, v⟩])).length = 0 := by rw [hlen1]; exact hn0
  all_goals
    have hidx : SeparateChainingHashTable.hash key % s.buckets.length <
      s.buckets.length := Nat.mod_lt _ hn
  all_goals
    have hb1 : (s.buckets.set
        (SeparateChainingHashTable.hash key % s.buckets.length)
        (bucket ++ [⟨key, v⟩])).get?
          (SeparateChainingHashTable.hash key %
            (s.buckets.set
              (SeparateChainingHashTable.hash key % s.buckets.length)
              (bucket ++ [⟨key, v⟩])).length) =
        some (bucket ++ [⟨key, v⟩]) := by
      rw [hlen1, List.get?_eq_getElem?]
      exact List.getElem?_set_self hidx
  · refine get_found_eq _ key hn1 _ hb1 ⟨key, v⟩ ?_
    have hfn : bucket.find? (fun entry => entry.compare_key key) = none :=
      List.find?_eq_none.mpr (fun e he => by
        simpa using (List.any_eq_false.mp hany) e he)
    rw [List.find?_append, hfn]
    simp [List.find?, HashTable.Entry.compare_key]
  · refine insert_dup_eq _ key w hn1 _ hb1 ?_
    simp [HashTable.Entry.compare_key]

/-- Witness for C5: empty 3-bucket table, key `[5]`. -/
theorem claim5_insert_then_get_then_duplicate_witness :
    (0 < (new ℕ 3).buckets.length ∧
      (new ℕ 3).buckets.flatten.any (fun e => e.compare_key [5]) = false) ∧
    ∃ s1, SeparateChainingHashTable.insert (new ℕ 3) [5] 1 =
        some (s1, .ok ()) ∧
      get s1 [5] = some (.ok 1) ∧
      SeparateChainingHashTable.insert s1 [5] 2 =
        some (s1, .error .DuplicateKey) :=
  ⟨⟨by decide, by decide⟩,
   claim5_insert_then_get_then_duplicate (new ℕ 3) [5] 1 2
     (by decide) (by decide)⟩

namespace HashTable.SeparateChainingHashTable

variable {T : Type}

/-- Replacing bucket `i` (whose content is `b`) by `b ++ [x]` appends `x`
to the flattened entry list, up to permutation. -/
theorem flatten_set_append {α : Type} :
    ∀ (l : List (List α)) (i : Nat) (b : List α),
      l.get? i = some b → ∀ (x : α),
      ((l.set i (b ++ [x])).flatten).Perm (l.flatten ++ [x])
  | [], i, b, hb, x => by simp at hb
  | h :: t, 0, b, hb, x => by
    simp only [List.get?_eq_getElem?, List.getElem?_cons_zero,
      Option.some_inj] at hb
    subst hb
    simp only [List.set_cons_zero, List.flatten_cons, List.append_assoc]
    exact (@List.perm_append_comm _ [x] t.flatten).append_left h
  | h :: t, i + 1, b, hb, x => by
    simp only [List.get?_eq_getElem?, List.getElem?_cons_succ] at hb
    rw [← List.get?_eq_getElem?] at hb
    simp only [List.set_cons_succ, List.flatten_cons, List.append_assoc]
    exact (flatten_set_append t i b hb x).append_left h

/-- Re-inserting a list of entries with pairwise-distinct keys, none of
which is already present, succeeds entry by entry and appends exactly
those entries (up to permutation), adding their count to `entries_len`
and leaving the bucket count unchanged. -/
theorem insertAll_ok :
    ∀ (es : List (Entry T)) (t : SeparateChainingHashTable T),
      0 < t.buckets.length →
      (es.map (fun e => e.key)).Nodup →
      (∀ e ∈ es, ∀ f ∈ t.buckets.flatten, f.key ≠ e.key) →
      ∃ t', insertAll t es = some t' ∧
        (t'.buckets.flatten).Perm (t.buckets.flatten ++ es) ∧
        t'.entries_len = t.entries_len + es.length ∧
        t'.buckets.length = t.buckets.length
  | [], t, _, _, _ => ⟨t, rfl, by simp, rfl, rfl⟩
  | e :: rest, t, hn, hnodup, hfresh => by
    have hn0 : ¬ t.buckets.length = 0 := Nat.pos_iff_ne_zero.mp hn
    obtain ⟨bucket, hb, hmem⟩ := get?_hashed_bucket t e.key hn
    have hany : bucket.any (fun f => f.compare_key e.key) = false := by
      rw [List.any_eq_false]
      intro f hf
      have := hfresh e (List.mem_cons_self e rest) f
        (List.mem_flatten.mpr ⟨bucket, hmem, hf⟩)
      simp [Entry.compare_key, this]
    have hins := insert_ok_eq t e.key e.value hn0 bucket hb hany
    set t1 : SeparateChainingHashTable T :=
      { buckets := t.buckets.set (hash e.key % t.buckets.length)
          (bucket ++ [⟨e.key, e.value⟩]),
        entries_len := t.entries_len + 1 } with ht1
    have hstep : insertAll t (e :: rest) = insertAll t1 rest := by
      simp only [insertAll, hins, ht1]
    have hperm1 : (t1.buckets.flatten).Perm (t.buckets.flatten ++ [e]) := by
      rw [ht1]
      exact flatten_set_append t.buckets _ bucket hb ⟨e.key, e.value⟩
    have hkeys : (∀ x ∈ rest, ¬ x.key = e.key) ∧
        (rest.map (fun f => f.key)).Nodup := by simpa using hnodup
    obtain ⟨t', ht', hperm', hcount', hlen'⟩ :=
      insertAll_ok rest t1
        (by rw [ht1]; simpa [List.length_set] using hn)
        hkeys.2
        (by
          intro e' he' f hf
          rcases List.mem_append.mp (hperm1.mem_iff.mp hf) with hf' | hf'
          · exact hfresh e' (List.mem_cons_of_mem e he') f hf'
          · rw [List.mem_singleton.mp hf']
            intro hkey
            exact hkeys.1 e' he' hkey.symm)
    refine ⟨t', hstep.trans ht', ?_, ?_, ?_⟩
    · refine hperm'.trans ((hperm1.append_right rest).trans ?_)
      rw [List.append_assoc]
      exact List.Perm.refl _
    · rw [hcount', ht1]
      simp only [List.length_cons]
      omega
    · rw [hlen', ht1]
      simp [List.length_set]

end HashTable.SeparateChainingHashTable

/-- Claim C3: on a table whose keys are pairwise distinct (with
`entry_count` equal to the number of stored entries, as the data model
defines it), `rehash(m)` with `m > 0` succeeds and leaves the table
holding exactly the same (key, value) pairs, up to order, with
`entries_len()` unchanged. -/
theorem claim3_rehash_preserves_entries {T : Type}
    (s : SeparateChainingHashTable T) (m : Nat) (hm : 0 < m)
    (hnodup : (s.buckets.flatten.map (fun e => e.key)).Nodup)
    (hcount : s.entries_len = s.buckets.flatten.length) :
    ∃ s', rehashing s m = some s' ∧
      (get_entries s').Perm (get_entries s) ∧
      s'.entries_len = s.entries_len := by
  obtain ⟨s', h1, hperm, hcnt, _⟩ :=
    insertAll_ok s.buckets.flatten
      { buckets := List.replicate m [], entries_len := 0 }
      (by simpa using hm) hnodup
      (by intro e _ f hf; simp [List.flatten_replicate_nil] at hf)
  have hflat : s'.buckets.flatten.Perm s.buckets.flatten := by
    simpa [List.flatten_replicate_nil] using hperm
  refine ⟨s', h1, hflat.map _, ?_⟩
  rw [hcnt, hcount]
  exact Nat.zero_add _

/-- A sample 2-bucket table with entries `[0] ↦ 10` and `[1] ↦ 11`. -/
def sampleTable : SeparateChainingHashTable ℕ :=
  { buckets := [[⟨[0], 10⟩], [⟨[1], 11⟩]], entries_len := 2 }

/-- Witness for C3: the sample table rehashed to 3 buckets. -/
theorem claim3_rehash_preserves_entries_witness :
    (0 < 3 ∧
      ((sampleTable.buckets.flatten.map (fun e => e.key)).Nodup) ∧
      sampleTable.entries_len = sampleTable.buckets.flatten.length) ∧
    ∃ s', rehashing sampleTable 3 = some s' ∧
      (get_entries s').Perm (get_entries sampleTable) ∧
      s'.entries_len = sampleTable.entries_len :=
  ⟨⟨by decide, by decide, by decide⟩,
   claim3_rehash_preserves_entries sampleTable 3
     (by decide) (by decide) (by decide)⟩

namespace HashTable.SeparateChainingHashTable

variable {T : Type}

/-- The structural invariant of the table: every entry sits in the bucket
selected by hashing its key modulo the bucket count, and within each
bucket the keys are pairwise distinct. -/
def HashInv (s : SeparateChainingHashTable T) : Prop :=
  ∀ (i : Nat) (hi : i < s.buckets.length),
    (∀ e ∈ s.buckets[i], hash e.key % s.buckets.length = i) ∧
    ((s.buckets[i]).map (fun e => e.key)).Nodup

/-- Tables reachable from `new(bucket_count)` with a positive bucket
count by successful (non-panicking) `insert`, `set`, `remove` and
`rehashing` calls. -/
inductive Reachable (T : Type) : SeparateChainingHashTable T → Prop where
  | mk_new (n : Nat) (hn : 0 < n) : Reachable T (new T n)
  | step_insert (s s' : SeparateChainingHashTable T)
      (r : Except Exceptions Unit) (key : Key) (value : T) :
      Reachable T s → insert s key value = some (s', r) → Reachable T s'
  | step_set (s s' : SeparateChainingHashTable T)
      (r : Except Exceptions Unit) (key : Key) (value : T) :
      Reachable T s → set s key value = some (s', r) → Reachable T s'
  | step_remove (s s' : SeparateChainingHashTable T)
      (r : Except Exceptions T) (key : Key) :
      Reachable T s → remove s key = some (s', r) → Reachable T s'
  | step_rehash (s s' : SeparateChainingHashTable T) (m : Nat) :
      Reachable T s → rehashing s m = some s' → Reachable T s'

theorem insert_result_cases {s s' : SeparateChainingHashTable T}
    {r : Except Exceptions Unit} {key : Key} {value : T}
    (h : insert s key value = some (s', r)) :
    s' = s ∨
    ∃ bucket, s.buckets.get? (hash key % s.buckets.length) = some bucket ∧
      bucket.any (fun e => e.compare_key key) = false ∧
      s' = { buckets := s.buckets.set (hash key % s.buckets.length)
               (bucket ++ [⟨key, value⟩]),
             entries_len := s.entries_len + 1 } := by
  unfold insert at h
  split at h
  · cases h
  · dsimp only at h
    split at h
    · cases h
    · next bucket heq =>
      split at h
      · simp only [Option.some.injEq, Prod.mk.injEq] at h
        exact Or.inl h.1.symm
      · next hcond =>
        simp only [Option.some.injEq, Prod.mk.injEq] at h
        exact Or.inr ⟨bucket, heq, Bool.not_eq_true _ ▸ hcond, h.1.symm⟩

theorem set_result_cases {s s' : SeparateChainingHashTable T}
    {r : Except Exceptions Unit} {key : Key} {value : T}
    (h : set s key value = some (s', r)) :
    s' = s ∨
    ∃ bucket bucket',
      s.buckets.get? (hash key % s.buckets.length) = some bucket ∧
      setFirstMatch key value bucket = some bucket' ∧
      s' = { s with buckets :=
               s.buckets.set (hash key % s.buckets.length) bucket' } := by
  unfold set at h
  split at h
  · cases h
  · dsimp only at h
    split at h
    · cases h
    · next bucket heq =>
      split at h
      · next bucket' heq' =>
        simp only [Option.some.injEq, Prod.mk.injEq] at h
        exact Or.inr ⟨bucket, bucket', heq, heq', h.1.symm⟩
      · simp only [Option.some.injEq, Prod.mk.injEq] at h
        exact Or.inl h.1.symm

theorem remove_result_cases {s s' : SeparateChainingHashTable T}
    {r : Except Exceptions T} {key : Key}
    (h : remove s key = some (s', r)) :
    s' = s ∨
    ∃ p chain, s.buckets.get? p = some chain ∧
      s' = { buckets := s.buckets.set p (chain.eraseIdx p),
             entries_len := s.entries_len - 1 } := by
  unfold remove at h
  split at h
  · cases h
  · dsimp only at h
    split at h
    · cases h
    · split at h
      · next p hfind =>
        split at h
        · cases h
        · next chain hchain =>
          split at h
          · cases h
          · next entry hentry =>
            simp only [Option.some.injEq, Prod.mk.injEq] at h
            exact Or.inr ⟨p, chain, hchain, h.1.symm⟩
      · simp only [Option.some.injEq, Prod.mk.injEq] at h
        exact Or.inl h.1.symm

end HashTable.SeparateChainingHashTable

namespace HashTable.SeparateChainingHashTable

variable {T : Type}

/-- `setFirstMatch` only overwrites a value: the key sequence of the
bucket is unchanged. -/
theorem setFirstMatch_keys {key : Key} {value : T} :
    ∀ {b b' : List (Entry T)}, setFirstMatch key value b = some b' →
      b'.map (fun e => e.key) = b.map (fun e => e.key)
  | [], _, h => by cases h
  | e :: rest, b', h => by
    unfold setFirstMatch at h
    split at h
    · cases h
      simp [Entry.set]
    · cases hrec : setFirstMatch key value rest with
      | none => rw [hrec] at h; cases h
      | some rest' =>
        rw [hrec] at h
        cases h
        simpa using setFirstMatch_keys hrec

theorem HashInv_new (T : Type) (n : Nat) : HashInv (new T n) := by
  intro i hi
  simp only [new] at hi ⊢
  rw [List.getElem_replicate]
  exact ⟨fun e he => absurd he (List.not_mem_nil e), List.nodup_nil⟩

theorem HashInv_insert {s s' : SeparateChainingHashTable T}
    {r : Except Exceptions Unit} {key : Key} {value : T}
    (hinv : HashInv s) (h : insert s key value = some (s', r)) :
    HashInv s' := by
  rcases insert_result_cases h with rfl | ⟨bucket, hb, hany, rfl⟩
  · exact hinv
  · obtain ⟨hidx, hbe⟩ := List.get?_eq_some.mp hb
    have hbe' : s.buckets[hash key % s.buckets.length] = bucket := hbe
    intro i hi
    have hi' : i < s.buckets.length := by
      simpa [List.length_set] using hi
    simp only [List.length_set]
    by_cases hik : hash key % s.buckets.length = i
    · subst hik
      rw [List.getElem_set_self]
      constructor
      · intro e he
        rcases List.mem_append.mp he with he' | he'
        · exact (hinv _ hidx).1 e (by rw [hbe']; exact he')
        · rw [List.mem_singleton.mp he']
      · rw [List.map_append]
        refine List.Nodup.append ?_ (List.nodup_singleton _) ?_
        · exact hbe' ▸ (hinv _ hidx).2
        · intro a ha ha'
          rw [List.mem_singleton.mp ha'] at ha
          obtain ⟨e, he, hek⟩ := List.mem_map.mp ha
          have := (List.any_eq_false.mp hany) e he
          simp [Entry.compare_key] at this
          exact this hek
    · rw [List.getElem_set_ne hik]
      exact hinv i hi'

theorem HashInv_set {s s' : SeparateChainingHashTable T}
    {r : Except Exceptions Unit} {key : Key} {value : T}
    (hinv : HashInv s) (h : set s key value = some (s', r)) :
    HashInv s' := by
  rcases set_result_cases h with rfl | ⟨bucket, bucket', hb, hsf, rfl⟩
  · exact hinv
  · obtain ⟨hidx, hbe⟩ := List.get?_eq_some.mp hb
    have hbe' : s.buckets[hash key % s.buckets.length] = bucket := hbe
    have hkeys := setFirstMatch_keys hsf
    intro i hi
    have hi' : i < s.buckets.length := by
      simpa [List.length_set] using hi
    simp only [List.length_set]
    by_cases hik : hash key % s.buckets.length = i
    · subst hik
      rw [List.getElem_set_self]
      constructor
      · intro e he
        have : e.key ∈ bucket'.map (fun e => e.key) := List.mem_map_of_mem _ he
        rw [hkeys] at this
        obtain ⟨f, hf, hfk⟩ := List.mem_map.mp this
        rw [← hfk]
        exact (hinv _ hidx).1 f (by rw [hbe']; exact hf)
      · rw [hkeys]
        exact hbe' ▸ (hinv _ hidx).2
    · rw [List.getElem_set_ne hik]
      exact hinv i hi'

theorem HashInv_remove {s s' : SeparateChainingHashTable T}
    {r : Except Exceptions T} {key : Key}
    (hinv : HashInv s) (h : remove s key = some (s', r)) :
    HashInv s' := by
  rcases remove_result_cases h with rfl | ⟨p, chain, hchain, rfl⟩
  · exact hinv
  · obtain ⟨hpidx, hce⟩ := List.get?_eq_some.mp hchain
    have hce' : s.buckets[p] = chain := hce
    intro i hi
    have hi' : i < s.buckets.length := by
      simpa [List.length_set] using hi
    simp only [List.length_set]
    by_cases hik : p = i
    · subst hik
      rw [List.getElem_set_self]
      constructor
      · intro e he
        exact (hinv _ hpidx).1 e
          (by rw [hce']; exact (List.eraseIdx_sublist chain p).subset he)
      · exact List.Nodup.sublist
          ((List.eraseIdx_sublist chain p).map _) (hce' ▸ (hinv _ hpidx).2)
    · rw [List.getElem_set_ne hik]
      exact hinv i hi'

theorem HashInv_insertAll :
    ∀ (es : List (Entry T)) {t t' : SeparateChainingHashTable T},
      HashInv t → insertAll t es = some t' → HashInv t'
  | [], t, t', hinv, h => by cases h; exact hinv
  | e :: rest, t, t', hinv, h => by
    unfold insertAll at h
    split at h
    · cases h
    · next s1 r heq =>
      exact HashInv_insertAll rest (HashInv_insert hinv heq) h

theorem HashInv_rehash {s s' : SeparateChainingHashTable T} {m : Nat}
    (h : rehashing s m = some s') : HashInv s' := by
  refine HashInv_insertAll s.buckets.flatten ?_ h
  intro i hi
  simp only at hi ⊢
  rw [List.getElem_replicate]
  exact ⟨fun e he => absurd he (List.not_mem_nil e), List.nodup_nil⟩

/-- Every reachable table satisfies the structural invariant. -/
theorem Reachable_HashInv {s : SeparateChainingHashTable T}
    (h : Reachable T s) : HashInv s := by
  induction h with
  | mk_new n hn => exact HashInv_new T n
  | step_insert s s' r key value _ heq ih => exact HashInv_insert ih heq
  | step_set s s' r key value _ heq ih => exact HashInv_set ih heq
  | step_remove s s' r key _ heq ih => exact HashInv_remove ih heq
  | step_rehash s s' m _ heq _ => exact HashInv_rehash heq

/-- The per-bucket invariant makes the keys of the whole table pairwise
distinct. -/
theorem HashInv.flatten_keys_nodup {s : SeparateChainingHashTable T}
    (hinv : HashInv s) :
    (s.buckets.flatten.map (fun e => e.key)).Nodup := by
  rw [List.map_flatten, List.nodup_flatten]
  constructor
  · intro l hl
    obtain ⟨b, hb, hbl⟩ := List.mem_map.mp hl
    obtain ⟨i, hi, hbi⟩ := List.mem_iff_getElem.mp hb
    rw [← hbl, ← hbi]
    exact (hinv i hi).2
  · rw [List.pairwise_iff_getElem]
    intro i j hi hj hij
    rw [List.length_map] at hi hj
    intro a hai haj
    rw [List.getElem_map] at hai haj
    obtain ⟨e, he, hek⟩ := List.mem_map.mp hai
    obtain ⟨f, hf, hfk⟩ := List.mem_map.mp haj
    have h1 := (hinv i hi).1 e he
    have h2 := (hinv j hj).1 f hf
    rw [hek] at h1
    rw [hfk] at h2
    omega

end HashTable.SeparateChainingHashTable

/-- Claim C4: in every table reachable from `new(bucket_count)` with a
positive bucket count by `insert`, `set`, `remove` and `rehashing`, each
key appears in at most one entry across the whole table, and every entry
lies in the bucket indexed by its key's hash modulo the bucket count;
i.e. the invariant is preserved by every (successful) operation. -/
theorem claim4_reachable_invariant {T : Type}
    (s : SeparateChainingHashTable T) (h : Reachable T s) :
    (s.buckets.flatten.map (fun e => e.key)).Nodup ∧
    ∀ (i : Nat) (hi : i < s.buckets.length),
      ∀ e ∈ s.buckets[i],
        SeparateChainingHashTable.hash e.key % s.buckets.length = i := by
  have hinv := Reachable_HashInv h
  exact ⟨hinv.flatten_keys_nodup, fun i hi e he => (hinv i hi).1 e he⟩

/-- Witness for C4: the two-bucket table reached by `new(2)` followed by
a successful `insert`. -/
theorem claim4_reachable_invariant_witness :
    Reachable ℕ { buckets := [[], [⟨[97], 5⟩]], entries_len := 1 } ∧
    (let s : SeparateChainingHashTable ℕ :=
      { buckets := [[], [⟨[97], 5⟩]], entries_len := 1 }
     (s.buckets.flatten.map (fun e => e.key)).Nodup ∧
      ∀ (i : Nat) (hi : i < s.buckets.length),
        ∀ e ∈ s.buckets[i],
          SeparateChainingHashTable.hash e.key % s.buckets.length = i) :=
  have hr : Reachable ℕ { buckets := [[], [⟨[97], 5⟩]], entries_len := 1 } :=
    Reachable.step_insert (new ℕ 2) _ (.ok ()) [97] 5
      (Reachable.mk_new 2 (by decide)) rfl
  ⟨hr, claim4_reachable_invariant _ hr⟩

theorem listSet_of_lt {α : Type} (l : List α) (i : Nat) (a : α)
    (h : i < l.length) : listSet l i a = some (l.set i a) :=
  if_pos h

namespace ArrayModel.DynamicArray

variable {T : Type}

theorem resize_array_length (s : DynamicArray T) (m : Nat) :
    (s.resize m).array.length = m := by
  simp [resize]

theorem resize_capacity (s : DynamicArray T) (m : Nat) :
    (s.resize m).capacity = m := rfl

theorem resize_len (s : DynamicArray T) (m : Nat) (h : s.len ≤ m) :
    (s.resize m).len = s.len := by
  simp only [resize]
  rw [if_neg (by omega)]

theorem resize_array_get? (s : DynamicArray T) (m : Nat) (j : Nat) :
    (s.resize m).array.get? j =
      if j < m then some (s.array.getD j none) else none := by
  simp only [resize, List.get?_eq_getElem?, List.getElem?_map]
  by_cases hj : j < m
  · rw [List.getElem?_range hj]
    simp [hj]
  · rw [List.getElem?_eq_none (by simpa using Nat.le_of_not_lt hj)]
    simp [hj]

/-- In-range slots survive a growing resize unchanged. -/
theorem resize_array_get?_in (s : DynamicArray T) (m : Nat) (j : Nat)
    (hj : j < s.array.length) (hjm : j < m) :
    (s.resize m).array.get? j = s.array.get? j := by
  rw [resize_array_get?, if_pos hjm, List.get?_eq_getElem?,
    List.getElem?_eq_getElem hj]
  simp [List.getD_eq_getElem?_getD, List.getElem?_eq_getElem hj]

theorem shiftRightAux_spec (arr : List (Option T)) :
    ∀ (count i : Nat) (cur : List (Option T)),
      arr.length = cur.length → i < cur.length → count ≤ i →
      ∃ res, shiftRightAux arr count i cur = some res ∧
        res.length = cur.length ∧
        ∀ j, res.get? j =
          if i - count < j ∧ j ≤ i then arr.get? (j - 1) else cur.get? j
  | 0, i, cur, _, _, _ => by
    refine ⟨cur, rfl, rfl, fun j => ?_⟩
    rw [if_neg]
    omega
  | count + 1, i, cur, harr, hi, hcount => by
    have hi1 : 1 ≤ i := by omega
    have hread : arr.get? (i - 1) = some arr[i - 1] := by
      rw [List.get?_eq_getElem?, List.getElem?_eq_getElem (by omega)]
    have hwrite : listSet cur i arr[i - 1] = some (cur.set i arr[i - 1]) :=
      listSet_of_lt cur i _ hi
    obtain ⟨res, hres, hlen, hspec⟩ :=
      shiftRightAux_spec arr count (i - 1) (cur.set i arr[i - 1])
        (by simpa [List.length_set] using harr)
        (by simpa [List.length_set] using Nat.lt_of_lt_of_le (by omega) hi.le)
        (by omega)
    refine ⟨res, ?_, by simpa [List.length_set] using hlen, fun j => ?_⟩
    · simp only [shiftRightAux, hread, hwrite]
      exact hres
    · rw [hspec j]
      by_cases hji : j = i
      · subst hji
        rw [if_neg (by omega), if_pos (by omega)]
        rw [List.get?_eq_getElem?, List.getElem?_set_self hi, ← hread]
      · by_cases hcond : i - (count + 1) < j ∧ j ≤ i
        · rw [if_pos (by omega), if_pos hcond]
        · rw [if_neg (by omega), if_neg hcond,
            List.get?_eq_getElem?, List.getElem?_set_ne (by omega),
            ← List.get?_eq_getElem?]

theorem shiftRightLoop_spec (arr : List (Option T)) (index len : Nat)
    (cur : List (Option T)) (harr : arr.length = cur.length)
    (hlen : len < cur.length) (hindex : index ≤ len) :
    ∃ res, shiftRightLoop arr index len cur = some res ∧
      res.length = cur.length ∧
      ∀ j, res.get? j =
        if index < j ∧ j ≤ len then arr.get? (j - 1) else cur.get? j := by
  obtain ⟨res, hres, hrlen, hspec⟩ :=
    shiftRightAux_spec arr (len - index) len cur harr hlen (by omega)
  refine ⟨res, hres, hrlen, fun j => ?_⟩
  rw [hspec j]
  congr 1
  simp only [eq_iff_iff]
  omega

theorem shiftLeftLoop_spec (index : Nat) :
    ∀ (slice : List (Option T)) (i : Nat) (cur : List (Option T)),
      index + i + slice.length ≤ cur.length →
      ∃ res, shiftLeftLoop index slice i cur = some res ∧
        res.length = cur.length ∧
        ∀ j, res.get? j =
          if index + i ≤ j ∧ j < index + i + slice.length
          then slice.get? (j - (index + i)) else cur.get? j
  | [], i, cur, _ => by
    refine ⟨cur, rfl, rfl, fun j => ?_⟩
    rw [if_neg (by simp only [List.length_nil]; omega)]
  | v :: rest, i, cur, hbound => by
    have hwi : index + i < cur.length := by
      simp only [List.length_cons] at hbound
      omega
    have hwrite : listSet cur (index + i) v = some (cur.set (index + i) v) :=
      listSet_of_lt cur _ v hwi
    obtain ⟨res, hres, hlen, hspec⟩ :=
      shiftLeftLoop_spec index rest (i + 1) (cur.set (index + i) v)
        (by simp only [List.length_set, List.length_cons] at hbound ⊢; omega)
    refine ⟨res, ?_, by simpa [List.length_set] using hlen, fun j => ?_⟩
    · simp only [shiftLeftLoop, hwrite]
      exact hres
    · rw [hspec j]
      by_cases hji : j = index + i
      · subst hji
        rw [if_neg (by omega), if_pos (by simp only [List.length_cons]; omega)]
        rw [List.get?_eq_getElem?, List.getElem?_set_self hwi]
        simp
      · by_cases hcond : index + (i + 1) ≤ j ∧ j < index + (i + 1) + rest.length
        · rw [if_pos hcond, if_pos (by simp only [List.length_cons]; omega)]
          have : j - (index + i) = (j - (index + (i + 1))) + 1 := by omega
          rw [this]
          rfl
        · rw [if_neg hcond, if_neg (by simp only [List.length_cons]; omega),
            List.get?_eq_getElem?, List.getElem?_set_ne (by omega),
            ← List.get?_eq_getElem?]

end ArrayModel.DynamicArray

namespace ArrayModel.DynamicArray

variable {T : Type}

theorem Inv.slot_some {s : DynamicArray T} (h : Inv s) {j : Nat}
    (hj : j < s.len) : ∃ v, s.array.get? j = some (some v) := by
  have hj' : j < s.array.length := by
    have := h.2.1
    rw [h.1]
    omega
  have h3 := h.2.2 j hj
  rw [List.getD_eq_getElem?_getD, List.getElem?_eq_getElem hj'] at h3
  obtain ⟨v, hv⟩ := Option.isSome_iff_exists.mp (by simpa using h3)
  refine ⟨v, ?_⟩
  rw [List.get?_eq_getElem?, List.getElem?_eq_getElem hj', hv]

theorem Inv_of_get? {s : DynamicArray T} (h1 : s.array.length = s.capacity)
    (h2 : s.len ≤ s.capacity)
    (h3 : ∀ j, j < s.len → ∃ v, s.array.get? j = some (some v)) : Inv s := by
  refine ⟨h1, h2, fun j hj => ?_⟩
  obtain ⟨v, hv⟩ := h3 j hj
  rw [List.getD_eq_getElem?_getD, ← List.get?_eq_getElem?, hv]
  rfl

theorem push_eq_of_zero (s : DynamicArray T) (v : T) (hc0 : s.capacity = 0)
    (arr : List (Option T))
    (hw : listSet (s.resize 4).array (s.resize 4).len (some v) = some arr) :
    push s v =
      some { s.resize 4 with array := arr, len := (s.resize 4).len + 1 } := by
  simp [push, hc0, hw]

theorem push_eq_of_full (s : DynamicArray T) (v : T)
    (hc0 : ¬ s.capacity = 0) (hfull : s.len = s.capacity)
    (arr : List (Option T))
    (hw : listSet (s.resize (s.capacity * 2)).array
      (s.resize (s.capacity * 2)).len (some v) = some arr) :
    push s v =
      some { s.resize (s.capacity * 2) with
              array := arr, len := (s.resize (s.capacity * 2)).len + 1 } := by
  simp [push, hc0, hfull, hw]

theorem push_eq_of_room (s : DynamicArray T) (v : T)
    (hc0 : ¬ s.capacity = 0) (hfull : ¬ s.len = s.capacity)
    (arr : List (Option T))
    (hw : listSet s.array s.len (some v) = some arr) :
    push s v = some { s with array := arr, len := s.len + 1 } := by
  simp [push, hc0, hfull, hw]

/-- `push` on a well-formed array always succeeds; the capacity stays,
doubles, or becomes 4 exactly as the source's growth policy says. -/
theorem push_ok {s : DynamicArray T} (hInv : Inv s) (v : T) :
    ∃ s', push s v = some s' ∧ Inv s' ∧ s'.len = s.len + 1 ∧
      s'.capacity = (if s.capacity = 0 then 4
        else if s.len = s.capacity then s.capacity * 2 else s.capacity) := by
  have hlen := hInv.1
  have hle := hInv.2.1
  by_cases hc0 : s.capacity = 0
  · have hl0 : s.len = 0 := by omega
    have h0 : (s.resize 4).len = s.len := resize_len s 4 (by omega)
    have hwlt : (s.resize 4).len < (s.resize 4).array.length := by
      rw [resize_array_length, h0, hl0]
      omega
    have hw := listSet_of_lt _ _ (some v) hwlt
    refine ⟨_, push_eq_of_zero s v hc0 _ hw, ?_, ?_, ?_⟩
    · refine Inv_of_get? ?_ ?_ ?_
      · simp [List.length_set, resize_array_length, resize_capacity]
      · simp only [resize_capacity, h0, hl0]
        omega
      · intro j hj
        simp only [h0, hl0, Nat.zero_add] at hj
        have hj0 : j = 0 := by omega
        subst hj0
        refine ⟨v, ?_⟩
        have : (s.resize 4).len = 0 := by rw [h0, hl0]
        rw [List.get?_eq_getElem?]
        simp only [this]
        rw [List.getElem?_set_self (by rw [resize_array_length]; omega)]
    · simp [h0]
    · simp [resize_capacity, hc0]
  · by_cases hfull : s.len = s.capacity
    · have hcap1 : 1 ≤ s.capacity := by omega
      have h0 : (s.resize (s.capacity * 2)).len = s.len :=
        resize_len s _ (by omega)
      have hwlt : (s.resize (s.capacity * 2)).len <
          (s.resize (s.capacity * 2)).array.length := by
        rw [resize_array_length, h0]
        omega
      have hw := listSet_of_lt _ _ (some v) hwlt
      refine ⟨_, push_eq_of_full s v hc0 hfull _ hw, ?_, ?_, ?_⟩
      · refine Inv_of_get? ?_ ?_ ?_
        · simp [List.length_set, resize_array_length, resize_capacity]
        · simp only [resize_capacity, h0]
          omega
        · intro j hj
          simp only [h0] at hj
          by_cases hjl : j = s.len
          · subst hjl
            refine ⟨v, ?_⟩
            rw [List.get?_eq_getElem?]
            rw [show s.len = (s.resize (s.capacity * 2)).len from h0.symm]
            rw [List.getElem?_set_self hwlt]
          · have hjlt : j < s.len := by omega
            obtain ⟨w, hwj⟩ := hInv.slot_some hjlt
            refine ⟨w, ?_⟩
            rw [List.get?_eq_getElem?,
              List.getElem?_set_ne (by rw [h0]; omega),
              ← List.get?_eq_getElem?]
            rw [resize_array_get?_in s _ j (by omega) (by omega)]
            exact hwj
      · simp [h0]
      · simp [resize_capacity, hc0, hfull]
    · have hltc : s.len < s.capacity := by omega
      have hw := listSet_of_lt s.array s.len (some v) (by omega)
      refine ⟨_, push_eq_of_room s v hc0 hfull _ hw, ?_, ?_, ?_⟩
      · refine Inv_of_get? ?_ ?_ ?_
        · simp [List.length_set, hlen]
        · simpa using hltc
        · intro j hj
          replace hj : j < s.len + 1 := hj
          by_cases hjl : j = s.len
          · subst hjl
            refine ⟨v, ?_⟩
            rw [List.get?_eq_getElem?, List.getElem?_set_self (by omega)]
          · have hjlt : j < s.len := by omega
            obtain ⟨w, hwj⟩ := hInv.slot_some hjlt
            refine ⟨w, ?_⟩
            rw [List.get?_eq_getElem?, List.getElem?_set_ne (by omega),
              ← List.get?_eq_getElem?]
            exact hwj
      · rfl
      · simp [hc0, hfull]

end ArrayModel.DynamicArray

namespace ArrayModel.DynamicArray

variable {T : Type}

theorem pushAll_ok :
    ∀ (vals : List T) (s : DynamicArray T), Inv s →
      (s.capacity = 0 ∨ ∃ k, s.capacity = 2 ^ (k + 2)) →
      ∃ s', pushAll s vals = some s' ∧ Inv s' ∧
        s'.len = s.len + vals.length ∧
        (vals = [] → s' = s) ∧
        (vals ≠ [] → ∃ k, s'.capacity = 2 ^ (k + 2))
  | [], s, hInv, _ =>
    ⟨s, rfl, hInv, by simp, fun _ => rfl, fun h => absurd rfl h⟩
  | v :: rest, s, hInv, hcap => by
    obtain ⟨s1, hps, hInv1, hlen1, hcap1⟩ := push_ok hInv v
    have hc1 : ∃ k, s1.capacity = 2 ^ (k + 2) := by
      rcases hcap with hc | ⟨k, hk⟩
      · exact ⟨0, by rw [hcap1, if_pos hc]; norm_num⟩
      · have hne : ¬ s.capacity = 0 := by
          rw [hk]
          exact Nat.pos_iff_ne_zero.mp (Nat.pos_pow_of_pos _ (by omega))
        by_cases hfull : s.len = s.capacity
        · refine ⟨k + 1, ?_⟩
          rw [hcap1, if_neg hne, if_pos hfull, hk]
          ring
        · exact ⟨k, by rw [hcap1, if_neg hne, if_neg hfull]; exact hk⟩
    obtain ⟨s', hps', hInv', hlen', hnil', hcap'⟩ :=
      pushAll_ok rest s1 hInv1 (Or.inr hc1)
    refine ⟨s', ?_, hInv', ?_, ?_, ?_⟩
    · simp only [pushAll, hps]
      exact hps'
    · rw [hlen', hlen1, List.length_cons]
      omega
    · intro h
      cases h
    · intro _
      by_cases hrest : rest = []
      · rw [hnil' hrest]
        exact hc1
      · exact hcap' hrest

end ArrayModel.DynamicArray

open ArrayModel.DynamicArray in
/-- Claim C7: starting from `new(0)`, after any non-empty sequence of
pushes the capacity is a power of two at least the number of pushes
(growth 0 to 4, then doubling). -/
theorem claim7_push_growth_power_of_two {T : Type} (vals : List T)
    (hne : vals ≠ []) :
    ∃ s' k, pushAll (DynamicArray.new T 0) vals = some s' ∧
      s'.len = vals.length ∧ s'.capacity = 2 ^ k ∧
      vals.length ≤ s'.capacity := by
  have hInv0 : Inv (DynamicArray.new T 0) :=
    ⟨rfl, by simp [DynamicArray.new], by simp [DynamicArray.new]⟩
  obtain ⟨s', hps, hInv', hlen', _, hcap'⟩ :=
    pushAll_ok vals (DynamicArray.new T 0) hInv0 (Or.inl rfl)
  obtain ⟨k, hk⟩ := hcap' hne
  have hlen'' : s'.len = vals.length := by
    rw [hlen']
    show 0 + vals.length = vals.length
    omega
  refine ⟨s', k + 2, hps, hlen'', hk, ?_⟩
  have := hInv'.2.1
  omega

open ArrayModel.DynamicArray in
/-- Witness for C7 with five pushes: capacity 8 = 2³ ≥ 5. -/
theorem claim7_push_growth_power_of_two_witness :
    ([1, 2, 3, 4, 5] : List ℕ) ≠ [] ∧
    ∃ s' k, pushAll (DynamicArray.new ℕ 0) [1, 2, 3, 4, 5] = some s' ∧
      s'.len = [1, 2, 3, 4, 5].length ∧ s'.capacity = 2 ^ k ∧
      [1, 2, 3, 4, 5].length ≤ s'.capacity :=
  ⟨by decide, claim7_push_growth_power_of_two [1, 2, 3, 4, 5] (by decide)⟩

namespace ArrayModel.DynamicArray

variable {T : Type}

theorem remove_eq_ok_keep (s : DynamicArray T) (i : Nat) (hi : ¬ i ≥ s.len)
    (v : T) (hv : s.array.get? i = some (some v))
    (hguard : s.len ≤ s.array.length) (arr1 : List (Option T))
    (h1 : shiftLeftLoop i ((s.array.take s.len).drop (i + 1)) 0 s.array =
      some arr1)
    (arr2 : List (Option T)) (h2 : listSet arr1 (s.len - 1) none = some arr2)
    (hcond : ¬ (s.len - 1 < s.capacity / 2 ∧ 1 < s.capacity)) :
    remove s i =
      some (⟨arr2, s.len - 1, s.capacity, s.current⟩, .ok v) := by
  rw [List.get?_eq_getElem?] at hv
  simp [remove, hi, hv, hguard, h1, h2, hcond]

theorem remove_eq_ok_halve (s : DynamicArray T) (i : Nat) (hi : ¬ i ≥ s.len)
    (v : T) (hv : s.array.get? i = some (some v))
    (hguard : s.len ≤ s.array.length) (arr1 : List (Option T))
    (h1 : shiftLeftLoop i ((s.array.take s.len).drop (i + 1)) 0 s.array =
      some arr1)
    (arr2 : List (Option T)) (h2 : listSet arr1 (s.len - 1) none = some arr2)
    (hcond : s.len - 1 < s.capacity / 2 ∧ 1 < s.capacity) :
    remove s i =
      some ((⟨arr2, s.len - 1, s.capacity, s.current⟩ :
        DynamicArray T).resize (s.capacity / 2), .ok v) := by
  rw [List.get?_eq_getElem?] at hv
  simp [remove, hi, hv, hguard, h1, h2, hcond]

/-- Full characterisation of a successful `remove` on a well-formed
array: the value at `index` is returned, everything to its right moves
one slot left, `len` drops by one, and the capacity halves exactly when
the halving rule fires. -/
theorem remove_ok_spec {s : DynamicArray T} (hInv : Inv s) {i : Nat}
    (hi : i < s.len) :
    ∃ v s2, remove s i = some (s2, .ok v) ∧
      s.array.get? i = some (some v) ∧
      s2.len = s.len - 1 ∧ Inv s2 ∧
      s2.capacity = (if s.len - 1 < s.capacity / 2 ∧ 1 < s.capacity
        then s.capacity / 2 else s.capacity) ∧
      (∀ j, j < i → s2.array.get? j = s.array.get? j) ∧
      (∀ j, i ≤ j → j < s.len - 1 → s2.array.get? j = s.array.get? (j + 1)) := by
  have hA := hInv.1
  have hlc := hInv.2.1
  have hiA : i < s.array.length := by omega
  obtain ⟨v, hv⟩ := hInv.slot_some hi
  have hguard : s.len ≤ s.array.length := by omega
  have hslice_len : ((s.array.take s.len).drop (i + 1)).length =
      s.len - (i + 1) := by
    rw [List.length_drop, List.length_take]
    omega
  have hslice_get : ∀ t, t < s.len - (i + 1) →
      ((s.array.take s.len).drop (i + 1)).get? t =
        s.array.get? (i + 1 + t) := by
    intro t ht
    rw [List.get?_eq_getElem?, List.getElem?_drop, List.getElem?_take,
      if_pos (by omega), ← List.get?_eq_getElem?]
  obtain ⟨res, hres, hreslen, hresget⟩ :=
    shiftLeftLoop_spec i ((s.array.take s.len).drop (i + 1)) 0 s.array
      (by rw [hslice_len]; omega)
  simp only [Nat.add_zero] at hresget
  have hset : listSet res (s.len - 1) none =
      some (res.set (s.len - 1) none) :=
    listSet_of_lt res _ none (by rw [hreslen]; omega)
  have harr2len : (res.set (s.len - 1) none).length = s.array.length := by
    rw [List.length_set, hreslen]
  have harr2 : ∀ j, j < s.len - 1 →
      (res.set (s.len - 1) none).get? j =
        (if i ≤ j then s.array.get? (j + 1) else s.array.get? j) := by
    intro j hj
    rw [List.get?_eq_getElem?, List.getElem?_set_ne (by omega),
      ← List.get?_eq_getElem?, hresget j]
    by_cases hij : i ≤ j
    · rw [if_pos (by rw [hslice_len]; omega), if_pos hij,
        hslice_get (j - i) (by omega)]
      congr 1
      omega
    · rw [if_neg (by rw [hslice_len]; omega), if_neg hij]
  have hslots : ∀ j, j < s.len - 1 →
      ∃ w, (res.set (s.len - 1) none).get? j = some (some w) := by
    intro j hj
    rw [harr2 j hj]
    by_cases hij : i ≤ j
    · rw [if_pos hij]
      exact hInv.slot_some (by omega)
    · rw [if_neg hij]
      exact hInv.slot_some (by omega)
  by_cases hcond : s.len - 1 < s.capacity / 2 ∧ 1 < s.capacity
  · refine ⟨v, _, remove_eq_ok_halve s i (by omega) v hv hguard res hres _
      hset hcond, hv, ?_, ?_, ?_, ?_, ?_⟩
    · exact resize_len _ _ (by show s.len - 1 ≤ s.capacity / 2; omega)
    · refine Inv_of_get? ?_ ?_ ?_
      · rw [resize_array_length, resize_capacity]
      · rw [resize_capacity, resize_len _ _ (by
          show s.len - 1 ≤ s.capacity / 2; omega)]
        show s.len - 1 ≤ s.capacity / 2
        omega
      · intro j hj
        rw [resize_len _ _ (by show s.len - 1 ≤ s.capacity / 2; omega)] at hj
        replace hj : j < s.len - 1 := hj
        rw [resize_array_get?_in _ _ j (by
          show j < (res.set (s.len - 1) none).length
          rw [harr2len]; omega) (by omega)]
        exact hslots j hj
    · rw [resize_capacity, if_pos hcond]
    · intro j hj
      rw [resize_array_get?_in _ _ j (by
        show j < (res.set (s.len - 1) none).length
        rw [harr2len]; omega) (by omega)]
      rw [harr2 j (by omega), if_neg (by omega)]
    · intro j hij hj
      rw [resize_array_get?_in _ _ j (by
        show j < (res.set (s.len - 1) none).length
        rw [harr2len]; omega) (by omega)]
      rw [harr2 j (by omega), if_pos hij]
  · refine ⟨v, _, remove_eq_ok_keep s i (by omega) v hv hguard res hres _
      hset hcond, hv, rfl, ?_, ?_, ?_, ?_⟩
    · refine Inv_of_get? ?_ ?_ ?_
      · show (res.set (s.len - 1) none).length = s.capacity
        rw [harr2len, hA]
      · show s.len - 1 ≤ s.capacity
        omega
      · intro j hj
        replace hj : j < s.len - 1 := hj
        exact hslots j hj
    · show s.capacity = _
      rw [if_neg hcond]
    · intro j hj
      show (res.set (s.len - 1) none).get? j = s.array.get? j
      rw [harr2 j (by omega), if_neg (by omega)]
    · intro j hij hj
      replace hj : j < s.len - 1 := hj
      show (res.set (s.len - 1) none).get? j = s.array.get? (j + 1)
      rw [harr2 j hj, if_pos hij]

end ArrayModel.DynamicArray

namespace ArrayModel.DynamicArray

variable {T : Type}

theorem insert_eq_ok_full (s : DynamicArray T) (index : Nat) (v : T)
    (hlt : ¬ index ≥ s.len) (hfull : s.len = s.capacity)
    (arr1 : List (Option T))
    (h1 : shiftRightLoop (s.resize (s.capacity * 2)).array index
      (s.resize (s.capacity * 2)).len (s.resize (s.capacity * 2)).array =
        some arr1)
    (arr2 : List (Option T)) (h2 : listSet arr1 index (some v) = some arr2) :
    insert s index v =
      some ((⟨arr2, (s.resize (s.capacity * 2)).len + 1,
        (s.resize (s.capacity * 2)).capacity,
        (s.resize (s.capacity * 2)).current⟩ : DynamicArray T), .ok ()) := by
  have hlt' : index < s.capacity := by omega
  simp [insert, hlt, hfull, h1, h2, hlt']

theorem insert_eq_ok_room (s : DynamicArray T) (index : Nat) (v : T)
    (hlt : ¬ index ≥ s.len) (hfull : ¬ s.len = s.capacity)
    (arr1 : List (Option T))
    (h1 : shiftRightLoop s.array index s.len s.array = some arr1)
    (arr2 : List (Option T)) (h2 : listSet arr1 index (some v) = some arr2) :
    insert s index v =
      some ((⟨arr2, s.len + 1, s.capacity, s.current⟩ : DynamicArray T),
        .ok ()) := by
  simp [insert, hlt, hfull, h1, h2]

/-- Full characterisation of a successful `insert` on a well-formed
array: the elements at and after `index` move one slot right, the value
lands at `index`, `len` grows by one, and the capacity doubles exactly
when the array was full. -/
theorem insert_ok_spec {s : DynamicArray T} (hInv : Inv s) {i : Nat} (v : T)
    (hi : i < s.len) :
    ∃ s1, insert s i v = some (s1, .ok ()) ∧
      s1.len = s.len + 1 ∧ Inv s1 ∧
      s1.capacity = (if s.len = s.capacity then s.capacity * 2
        else s.capacity) ∧
      (∀ j, j < i → s1.array.get? j = s.array.get? j) ∧
      s1.array.get? i = some (some v) ∧
      (∀ j, i < j → j ≤ s.len → s1.array.get? j = s.array.get? (j - 1)) := by
  have hA := hInv.1
  have hlc := hInv.2.1
  by_cases hfull : s.len = s.capacity
  · have hc1 : 1 ≤ s.capacity := by omega
    have hR0 : (s.resize (s.capacity * 2)).len = s.len :=
      resize_len s _ (by omega)
    have hRlen : (s.resize (s.capacity * 2)).array.length =
        s.capacity * 2 := resize_array_length ..
    have hRget : ∀ j, j < s.len →
        (s.resize (s.capacity * 2)).array.get? j = s.array.get? j := by
      intro j hj
      exact resize_array_get?_in s _ j (by omega) (by omega)
    obtain ⟨res, hres, hreslen, hresget⟩ :=
      shiftRightLoop_spec (s.resize (s.capacity * 2)).array i
        (s.resize (s.capacity * 2)).len (s.resize (s.capacity * 2)).array
        rfl (by rw [hRlen, hR0]; omega) (by rw [hR0]; omega)
    have h2 : listSet res i (some v) = some (res.set i (some v)) :=
      listSet_of_lt res i _ (by rw [hreslen, hRlen]; omega)
    refine ⟨_, insert_eq_ok_full s i v (by omega) hfull res hres _ h2,
      ?_, ?_, ?_, ?_, ?_, ?_⟩
    · show (s.resize (s.capacity * 2)).len + 1 = s.len + 1
      rw [hR0]
    · refine Inv_of_get? ?_ ?_ ?_
      · show (res.set i (some v)).length = (s.resize (s.capacity * 2)).capacity
        rw [List.length_set, hreslen, hRlen, resize_capacity]
      · show (s.resize (s.capacity * 2)).len + 1 ≤
          (s.resize (s.capacity * 2)).capacity
        rw [hR0, resize_capacity]
        omega
      · intro j hj
        replace hj : j < (s.resize (s.capacity * 2)).len + 1 := hj
        rw [hR0] at hj
        show ∃ w, (res.set i (some v)).get? j = some (some w)
        by_cases hji : j = i
        · subst hji
          refine ⟨v, ?_⟩
          rw [List.get?_eq_getElem?,
            List.getElem?_set_self (by rw [hreslen, hRlen]; omega)]
        · rw [List.get?_eq_getElem?, List.getElem?_set_ne (by omega),
            ← List.get?_eq_getElem?, hresget j]
          by_cases hcase : i < j ∧ j ≤ (s.resize (s.capacity * 2)).len
          · rw [if_pos hcase]
            rw [hR0] at hcase
            rw [hRget (j - 1) (by omega)]
            exact hInv.slot_some (by omega)
          · rw [if_neg hcase]
            rw [hR0] at hcase
            have hjlt : j < s.len := by omega
            rw [hRget j hjlt]
            exact hInv.slot_some hjlt
    · show (s.resize (s.capacity * 2)).capacity = _
      rw [resize_capacity, if_pos hfull]
    · intro j hj
      show (res.set i (some v)).get? j = s.array.get? j
      rw [List.get?_eq_getElem?, List.getElem?_set_ne (by omega),
        ← List.get?_eq_getElem?, hresget j, if_neg (by omega),
        hRget j (by omega)]
    · show (res.set i (some v)).get? i = some (some v)
      rw [List.get?_eq_getElem?,
        List.getElem?_set_self (by rw [hreslen, hRlen]; omega)]
    · intro j hij hj
      show (res.set i (some v)).get? j = s.array.get? (j - 1)
      rw [List.get?_eq_getElem?, List.getElem?_set_ne (by omega),
        ← List.get?_eq_getElem?, hresget j, if_pos ⟨hij, by rw [hR0]; omega⟩,
        hRget (j - 1) (by omega)]
  · have hlt : s.len < s.capacity := by omega
    obtain ⟨res, hres, hreslen, hresget⟩ :=
      shiftRightLoop_spec s.array i s.len s.array rfl (by omega) (by omega)
    have h2 : listSet res i (some v) = some (res.set i (some v)) :=
      listSet_of_lt res i _ (by rw [hreslen]; omega)
    refine ⟨_, insert_eq_ok_room s i v (by omega) hfull res hres _ h2,
      rfl, ?_, ?_, ?_, ?_, ?_⟩
    · refine Inv_of_get? ?_ ?_ ?_
      · show (res.set i (some v)).length = s.capacity
        rw [List.length_set, hreslen, hA]
      · show s.len + 1 ≤ s.capacity
        omega
      · intro j hj
        replace hj : j < s.len + 1 := hj
        show ∃ w, (res.set i (some v)).get? j = some (some w)
        by_cases hji : j = i
        · subst hji
          refine ⟨v, ?_⟩
          rw [List.get?_eq_getElem?,
            List.getElem?_set_self (by rw [hreslen]; omega)]
        · rw [List.get?_eq_getElem?, List.getElem?_set_ne (by omega),
            ← List.get?_eq_getElem?, hresget j]
          by_cases hcase : i < j ∧ j ≤ s.len
          · rw [if_pos hcase]
            exact hInv.slot_some (by omega)
          · rw [if_neg hcase]
            exact hInv.slot_some (by omega)
    · show s.capacity = _
      rw [if_neg hfull]
    · intro j hj
      show (res.set i (some v)).get? j = s.array.get? j
      rw [List.get?_eq_getElem?, List.getElem?_set_ne (by omega),
        ← List.get?_eq_getElem?, hresget j, if_neg (by omega)]
    · show (res.set i (some v)).get? i = some (some v)
      rw [List.get?_eq_getElem?,
        List.getElem?_set_self (by rw [hreslen]; omega)]
    · intro j hij hj
      show (res.set i (some v)).get? j = s.array.get? (j - 1)
      rw [List.get?_eq_getElem?, List.getElem?_set_ne (by omega),
        ← List.get?_eq_getElem?, hresget j, if_pos ⟨hij, hj⟩]

end ArrayModel.DynamicArray

open ArrayModel.DynamicArray in
/-- Claim C6: for a well-formed dynamic array and `i < length`,
`insert(i, v)` then `remove(i)` succeeds, returns `v`, and restores the
length and the values at all indices below the original length, through
any capacity doubling or halving. -/
theorem claim6_insert_remove_roundtrip {T : Type} (s : DynamicArray T)
    (hInv : Inv s) (i : Nat) (v : T) (hi : i < s.len) :
    ∃ s1 s2, DynamicArray.insert s i v = some (s1, .ok ()) ∧
      DynamicArray.remove s1 i = some (s2, .ok v) ∧
      s2.len = s.len ∧
      ∀ j, j < s.len → s2.array.get? j = s.array.get? j := by
  obtain ⟨s1, heq1, hlen1, hInv1, hcap1, hpre1, hat1, hpost1⟩ :=
    insert_ok_spec hInv v hi
  have hi1 : i < s1.len := by omega
  obtain ⟨w, s2, heq2, hat2, hlen2, hInv2, hcap2, hpre2, hpost2⟩ :=
    remove_ok_spec hInv1 hi1
  have hw : w = v := by
    have := hat1.symm.trans hat2
    simpa using this.symm
  subst hw
  refine ⟨s1, s2, heq1, heq2, by omega, ?_⟩
  intro j hj
  by_cases hji : j < i
  · rw [hpre2 j hji, hpre1 j hji]
  · have hij : i ≤ j := by omega
    have hj2 : j < s1.len - 1 := by omega
    rw [hpost2 j hij hj2, hpost1 (j + 1) (by omega) (by omega),
      Nat.add_sub_cancel]

open ArrayModel.DynamicArray in
/-- Witness for C6 on `[1, 2, 3]` with capacity 4, inserting 42 at
index 1 and removing it again. -/
theorem claim6_insert_remove_roundtrip_witness :
    (Inv (with_values 4 [1, 2, 3]) ∧ 1 < (with_values 4 [1, 2, 3]).len) ∧
    ∃ s1 s2,
      DynamicArray.insert (with_values 4 [1, 2, 3]) 1 42 =
        some (s1, .ok ()) ∧
      DynamicArray.remove s1 1 = some (s2, .ok 42) ∧
      s2.len = (with_values 4 [1, 2, 3]).len ∧
      ∀ j, j < (with_values 4 [1, 2, 3]).len →
        s2.array.get? j = (with_values 4 [1, 2, 3]).array.get? j :=
  ⟨⟨by decide, by decide⟩,
   claim6_insert_remove_roundtrip (with_values 4 [1, 2, 3])
     (by decide) 1 42 (by decide)⟩

namespace ArrayModel.DynamicArray

variable {T : Type}

/-- Draining with `remove(0)` succeeds step by step; the capacity never
reaches 0 once it was at least 1. -/
theorem drain_ok :
    ∀ (k : Nat) (s : DynamicArray T), Inv s → k ≤ s.len →
      ∃ s', drain k s = some s' ∧ Inv s' ∧ s'.len = s.len - k ∧
        (1 ≤ s.capacity → 1 ≤ s'.capacity)
  | 0, s, hInv, _ => ⟨s, rfl, hInv, by simp, fun h => h⟩
  | k + 1, s, hInv, hk => by
    have h0 : 0 < s.len := by omega
    obtain ⟨v, s2, heq, _, hlen2, hInv2, hcap2, _, _⟩ :=
      remove_ok_spec hInv h0
    have hrf : removeFront s = some s2 := by
      unfold removeFront
      rw [heq]
    obtain ⟨s', hd, hInv', hlen', hcap'⟩ := drain_ok k s2 hInv2 (by omega)
    refine ⟨s', ?_, hInv', by omega, ?_⟩
    · simp only [drain, hrf]
      exact hd
    · intro h1
      apply hcap'
      rw [hcap2]
      split
      · next hc => omega
      · exact h1

end ArrayModel.DynamicArray

open ArrayModel.DynamicArray in
/-- Claim C8: on a well-formed dynamic array, any number `k ≤ length` of
successive `remove(0)` calls succeeds without panicking (in particular
draining to `length == 0` with `k = length`), and the capacity never
drops below 1 once it was at least 1. -/
theorem claim8_remove_front_drain {T : Type} (s : DynamicArray T)
    (hInv : Inv s) (k : Nat) (hk : k ≤ s.len) :
    ∃ s', drain k s = some s' ∧ s'.len = s.len - k ∧
      (1 ≤ s.capacity → 1 ≤ s'.capacity) := by
  obtain ⟨s', h1, _, h3, h4⟩ := drain_ok k s hInv hk
  exact ⟨s', h1, h3, h4⟩

open ArrayModel.DynamicArray in
/-- Witness for C8: draining `[1, 2, 3]` (capacity 3) completely. -/
theorem claim8_remove_front_drain_witness :
    (Inv (with_values 3 [1, 2, 3]) ∧ 3 ≤ (with_values 3 [1, 2, 3]).len) ∧
    ∃ s', drain 3 (with_values 3 [1, 2, 3]) = some s' ∧
      s'.len = (with_values 3 [1, 2, 3]).len - 3 ∧
      (1 ≤ (with_values 3 [1, 2, 3]).capacity → 1 ≤ s'.capacity) :=
  ⟨⟨by decide, by decide⟩,
   claim8_remove_front_drain (with_values 3 [1, 2, 3]) (by decide) 3
     (by decide)⟩
